import Mathlib

/-!
# Verification of the `xstream` stream splitter and process pools

Shallow embedding of `src/lib.rs` (the `xstream` scan loop), `src/limit.rs`
(`Limiting` pool), `src/rot.rs` (`Rotating` pool), and `src/pool.rs` (the
baseline `Pool`).  Bytes are modelled as `Nat`, a buffered reader
(`BufRead`) as a current buffer plus the list of chunks the underlying
reader will still deliver, and child processes as records carrying a pid
and an optional stdin handle.  Loops are expressed with explicit fuel so
that every definition is executable; top-level entry points supply fuel
that is proved sufficient.
-/

set_option autoImplicit false

namespace XStream

/-- State of a `BufRead` source: `remainder` is the unconsumed part of the
current internal buffer, `rest` is the list of chunks future reads of the
underlying reader will return (one chunk per read). -/
structure SplitState where
  remainder : List Nat
  rest : List (List Nat)
deriving Repr, DecidableEq

/-- Total number of bytes the source still holds. -/
def totalBytes (s : SplitState) : Nat :=
  s.remainder.length + (s.rest.map List.length).sum

/-- Model of `BufRead::fill_buf`: return the internal buffer, reading one
chunk from the underlying reader only when the buffer is empty. -/
def fillBuf (s : SplitState) : SplitState :=
  match s.remainder, s.rest with
  | [], c :: cs => ⟨c, cs⟩
  | _, _ => s

/-- All bytes remaining in the source, in order. -/
def stFlat (s : SplitState) : List Nat :=
  s.remainder ++ s.rest.flatten

/-- Model of `buf.windows(delim.len()).position(|w| w == delim)`: index of
the first occurrence of `delim` in `buf`, scanning left to right. -/
def matchPos (delim : List Nat) : List Nat → Option Nat
  | [] => none
  | b :: t =>
    if (b :: t).take delim.length = delim then some 0
    else (matchPos delim t).map (· + 1)

/-- The `(consume, hit_delim)` pair computed by one iteration of the scan
loop in `xstream` (src/lib.rs lines 61-75). -/
def scanConsume (delim buf : List Nat) : Nat × Bool :=
  match matchPos delim buf with
  | none =>
    (if buf.length < delim.length then buf.length
     else buf.length - delim.length + 1, false)
  | some pos => (pos + delim.length, true)

/-- The bytes one iteration of the scan loop writes to the current process
(src/lib.rs lines 76-85): on a hit with a write-delimiter configured, the
bytes before the match followed by the write-delimiter; otherwise the
consumed bytes verbatim. -/
def stepOut (delim : List Nat) (wdelim : Option (List Nat)) (buf : List Nat) :
    List Nat :=
  match wdelim, (scanConsume delim buf).2 with
  | some w, true => buf.take ((scanConsume delim buf).1 - delim.length) ++ w
  | _, _ => buf.take (scanConsume delim buf).1

/-- The inner `while { .. } {}` loop of `xstream` for a single segment:
repeatedly fill the buffer, scan, write, consume, until a delimiter is hit
or nothing was consumed.  Returns the bytes written for this segment and
the final source state.  `fuel` bounds the number of iterations. -/
def innerLoop (delim : List Nat) (wdelim : Option (List Nat)) :
    Nat → SplitState → List Nat × SplitState
  | 0, s => ([], s)
  | fuel + 1, s =>
    let s1 := fillBuf s
    let buf := s1.remainder
    let c := scanConsume delim buf
    let s2 : SplitState := ⟨buf.drop c.1, s1.rest⟩
    if c.2 = false ∧ 0 < c.1 then
      let r := innerLoop delim wdelim fuel s2
      (stepOut delim wdelim buf ++ r.1, r.2)
    else (stepOut delim wdelim buf, s2)

/-- The outer `while !in_handle.fill_buf()?.is_empty()` loop of `xstream`:
one iteration per acquired process / segment.  Returns the list of byte
strings written to the successive processes, in acquisition order. -/
def outerLoop (delim : List Nat) (wdelim : Option (List Nat)) :
    Nat → SplitState → List (List Nat)
  | 0, _ => []
  | fuel + 1, s =>
    let s1 := fillBuf s
    if s1.remainder = [] then []
    else
      let r := innerLoop delim wdelim (totalBytes s1 + 1) s1
      r.1 :: outerLoop delim wdelim fuel r.2

/-- Model of `xstream(pool, in_handle, delim, write_delim)` (src/lib.rs
lines 47-92), abstracted over the pool: the input is given as the list of chunks
the underlying reader delivers, and the result is the list of byte strings
written to the successively acquired processes.  `none` models the panic
of `windows(0)` on an empty delimiter. -/
def xstream (delim : List Nat) (wdelim : Option (List Nat))
    (chunks : List (List Nat)) : Option (List (List Nat)) :=
  match delim with
  | [] => none
  | _ :: _ =>
    some (outerLoop delim wdelim (totalBytes ⟨[], chunks⟩ + 1) ⟨[], chunks⟩)

/-- Specification-side segmentation (fuelled worker): split the input at
the leftmost occurrence of the delimiter and recurse on what follows the
occurrence.  At fuel 0 the input is necessarily empty (for a non-empty
delimiter every step removes at least one byte), and the returned value
coincides with the unfuelled one. -/
def segmentsSpecF (delim : List Nat) : Nat → List Nat → List (List Nat)
  | 0, input => [input]
  | f + 1, input =>
    match matchPos delim input with
    | none => [input]
    | some pos =>
      input.take pos :: segmentsSpecF delim f (input.drop (pos + delim.length))

/-- Specification-side segmentation: the maximal delimiter-free parts of
the input, splitting at each leftmost non-overlapping occurrence of the
delimiter (spec section 3, Segment).  An input with `k` occurrences has
`k + 1` parts. -/
def segmentsSpec (delim input : List Nat) : List (List Nat) :=
  segmentsSpecF delim input.length input

/-- Specification-side rejoin: concatenate the parts with the separator
`W` between consecutive parts (used to state the round-trip and
delimiter-substitution properties). -/
def joinWith (W : List Nat) : List (List Nat) → List Nat
  | [] => []
  | [p] => p
  | p :: q :: t => p ++ W ++ joinWith W (q :: t)

/-- The per-process byte strings the scanner produces from the parts of
a single-chunk input: every part but the last is written followed by `W`
(the write-delimiter if configured, otherwise the delimiter itself), and
the final part is written alone — or produces no segment at all when it
is empty, because the outer loop stops once the source is exhausted. -/
def renderSegs (W : List Nat) : List (List Nat) → List (List Nat)
  | [] => []
  | [p] => if p = [] then [] else [p]
  | p :: q :: t => (p ++ W) :: renderSegs W (q :: t)

/-! ## Process and pool model (src/pool.rs, src/limit.rs, src/rot.rs) -/

/-- A spawned child process: its pid and its stdin handle, which is
present exactly when the command was configured with a piped stdin. -/
structure Child where
  pid : Nat
  stdin : Option Nat
deriving Repr, DecidableEq

/-- The part of `std::process::Command` the pools use: whether stdin has
been configured with `Stdio::piped()`. -/
structure Command where
  stdinPiped : Bool
deriving Repr, DecidableEq

/-- Model of `Command::spawn` of the standard library: the child's stdin
handle is present exactly when the command was configured with a piped
stdin (spec section 6: input explicitly requested as piped, output left
inherited).  `pid` is the fresh identity the operating system hands out. -/
def Command.spawn (cmd : Command) (pid : Nat) : Child :=
  ⟨pid, if cmd.stdinPiped then some pid else none⟩

/-- Modelled from the spec: the `Error` enum of the current `pool.rs`
revision is not under `src/` (only its constructors are used, in
`lib.rs`, `limit.rs` and `rot.rs`); its variants follow the spec's error
taxonomy (section 7) and those uses: input read failure, output write
failure, missing stdin handle, spawn failure, non-zero exit code, death
by signal, wait failure. -/
inductive Error where
  | input
  | output
  | stdinNotPiped
  | spawnFailed
  | nonzeroExit (code : Nat)
  | killedBySignal
  | waitFailed
deriving Repr, DecidableEq

/-- Outcome the operating system reports when waiting on a process:
either the wait call itself fails, or an exit status whose `code()` is
`some code` (normal exit) or `none` (killed by a signal). -/
inductive WaitOutcome where
  | ioError
  | status (code : Option Nat)
deriving Repr, DecidableEq

/-- `parse_code` (src/pool.rs lines 21-33): exit code 0 is success; a
non-zero code and death by signal are distinct failures. -/
def parse_code (code : Option Nat) : Except Error Unit :=
  match code with
  | some 0 => .ok ()
  | some c => .error (.nonzeroExit c)
  | none => .error .killedBySignal

/-- `wait_proc` (src/pool.rs lines 37-39): wait for the process,
propagating a failing wait call, then check its exit status.  The
`oracle` gives each pid's wait outcome. -/
def wait_proc (oracle : Nat → WaitOutcome) (c : Child) : Except Error Unit :=
  match oracle c.pid with
  | .ioError => .error .waitFailed
  | .status code => parse_code code

/-- The `while let Some(proc) = ... { wait_proc(proc)? }` loop shared by
every `join`: pop processes in the order given and wait on each,
stopping at the first failure; a process is removed before it is waited
on.  Returns the result together with the processes still tracked. -/
def sweep (oracle : Nat → WaitOutcome) :
    List Child → Except Error Unit × List Child
  | [] => (.ok (), [])
  | c :: rest =>
    match wait_proc oracle c with
    | .error e => (.error e, rest)
    | .ok _ => sweep oracle rest

/-- `Limiting` pool state (src/limit.rs lines 19-24): the queue of
tracked children (front = oldest), the bound, and the command template.
`nextPid` models the operating system handing a fresh pid to each spawn. -/
structure Limiting where
  procs : List Child
  max_procs : Nat
  command : Command
  nextPid : Nat
deriving Repr, DecidableEq

/-- `Limiting::new` (src/limit.rs lines 30-37): configure the command
with a piped stdin and start with no tracked processes. -/
def Limiting.new (cmd : Command) (max_procs : Nat) : Limiting :=
  ⟨[], max_procs, { cmd with stdinPiped := true }, 0⟩

/-- `Limiting::get` (src/limit.rs lines 47-57): when bounded and full,
pop the oldest tracked process and wait on it, propagating its failure
(in which case nothing is spawned); then spawn a new process, track it
at the back and return it.  The updated pool is returned alongside,
mirroring `&mut self`.  The empty-queue arm mirrors the `unwrap`, which
is unreachable because the queue length equals the non-zero bound. -/
def Limiting.get (oracle : Nat → WaitOutcome) (p : Limiting) :
    Except Error Child × Limiting :=
  if p.max_procs ≠ 0 ∧ p.procs.length = p.max_procs then
    match p.procs with
    | [] => (.error .spawnFailed, p)
    | oldest :: rest =>
      match wait_proc oracle oldest with
      | .error e => (.error e, { p with procs := rest })
      | .ok _ =>
        (.ok (p.command.spawn p.nextPid),
         { p with procs := rest ++ [p.command.spawn p.nextPid],
                  nextPid := p.nextPid + 1 })
  else
    (.ok (p.command.spawn p.nextPid),
     { p with procs := p.procs ++ [p.command.spawn p.nextPid],
              nextPid := p.nextPid + 1 })

/-- `Limiting::join` (src/limit.rs lines 64-71): repeatedly `pop_back`
the newest tracked process and wait on it; popping from the back of the
queue is popping from the front of the reversed queue. -/
def Limiting.join (oracle : Nat → WaitOutcome) (p : Limiting) :
    Except Error Unit × Limiting :=
  ((sweep oracle p.procs.reverse).1,
   { p with procs := (sweep oracle p.procs.reverse).2.reverse })

/-- Call `Limiting::join` repeatedly (at most `fuel` times) until it
succeeds, as its documentation describes. -/
def Limiting.joinRepeat (oracle : Nat → WaitOutcome) :
    Nat → Limiting → Limiting
  | 0, p => p
  | fuel + 1, p =>
    match Limiting.join oracle p with
    | (.ok _, p1) => p1
    | (.error _, p1) => Limiting.joinRepeat oracle fuel p1

/-- `Rotating` pool state (src/rot.rs lines 17-23): the tracked
children, the bound, the command template and the rotation cursor.
`nextPid` models the operating system handing a fresh pid to each spawn. -/
structure Rotating where
  procs : List Child
  max_procs : Nat
  command : Command
  ind : Nat
  nextPid : Nat
deriving Repr, DecidableEq

/-- `Rotating::new` (src/rot.rs lines 29-37): configure the command with
a piped stdin and start with no tracked processes and cursor 0. -/
def Rotating.new (cmd : Command) (max_procs : Nat) : Rotating :=
  ⟨[], max_procs, { cmd with stdinPiped := true }, 0, 0⟩

/-- `Rotating::get` (src/rot.rs lines 50-65): with bound 0, always spawn
and return the new process; otherwise spawn while fewer than the bound
are tracked, then return `procs[ind]` and advance the cursor modulo the
bound.  The out-of-bounds index (a Rust panic, unreachable in reachable
states) is modelled by a default child. -/
def Rotating.get (p : Rotating) : Child × Rotating :=
  if p.max_procs = 0 then
    (p.command.spawn p.nextPid,
     { p with procs := p.procs ++ [p.command.spawn p.nextPid],
              nextPid := p.nextPid + 1 })
  else
    let p1 :=
      if p.procs.length < p.max_procs then
        { p with procs := p.procs ++ [p.command.spawn p.nextPid],
                 nextPid := p.nextPid + 1 }
      else p
    (p1.procs.getD p1.ind ⟨0, none⟩,
     { p1 with ind := (p1.ind + 1) % p1.max_procs })

/-- `Rotating::join` (src/rot.rs lines 72-79): repeatedly `pop` the
newest tracked process (the back of the vector) and wait on it. -/
def Rotating.join (oracle : Nat → WaitOutcome) (p : Rotating) :
    Except Error Unit × Rotating :=
  ((sweep oracle p.procs.reverse).1,
   { p with procs := (sweep oracle p.procs.reverse).2.reverse })

/-- Call `Rotating::join` repeatedly (at most `fuel` times) until it
succeeds. -/
def Rotating.joinRepeat (oracle : Nat → WaitOutcome) :
    Nat → Rotating → Rotating
  | 0, p => p
  | fuel + 1, p =>
    match Rotating.join oracle p with
    | (.ok _, p1) => p1
    | (.error _, p1) => Rotating.joinRepeat oracle fuel p1

/-- Pool state after `n` successive `Rotating::get` calls. -/
def Rotating.iterate (p : Rotating) : Nat → Rotating
  | 0 => p
  | n + 1 => (Rotating.get (Rotating.iterate p n)).2

/-- The children returned by `n` successive `Rotating::get` calls, in
call order. -/
def Rotating.run (p : Rotating) : Nat → List Child
  | 0 => []
  | n + 1 => Rotating.run p n ++ [(Rotating.get (Rotating.iterate p n)).1]

/-- Baseline `Pool` state (src/pool.rs lines 16-19). -/
structure Pool where
  procs : List Child
  max_procs : Nat
deriving Repr, DecidableEq

/-- `Pool::join` (src/pool.rs lines 87-92): repeatedly `pop_front` the
oldest tracked process and wait on it. -/
def Pool.join (oracle : Nat → WaitOutcome) (p : Pool) :
    Except Error Unit × Pool :=
  ((sweep oracle p.procs).1, { p with procs := (sweep oracle p.procs).2 })

/-- Call `Pool::join` repeatedly (at most `fuel` times) until it
succeeds. -/
def Pool.joinRepeat (oracle : Nat → WaitOutcome) : Nat → Pool → Pool
  | 0, p => p
  | fuel + 1, p =>
    match Pool.join oracle p with
    | (.ok _, p1) => p1
    | (.error _, p1) => Pool.joinRepeat oracle fuel p1

/-- The kill loop of every `Drop` implementation
(`for proc in &mut self.procs { let _ = proc.kill(); }`): the result of
each kill is discarded and the loop continues, so every tracked process
is killed whatever the individual outcomes.  Returns the pids killed,
in order. -/
def killAll (killO : Nat → Except Error Unit) : List Child → List Nat
  | [] => []
  | c :: rest =>
    match killO c.pid with
    | .ok _ => c.pid :: killAll killO rest
    | .error _ => c.pid :: killAll killO rest

/-- The wait loop of every `Drop` implementation (`let _ = proc.wait()`
in limit.rs/rot.rs, `let _ = wait_proc(proc)` in pool.rs): the result of
each wait is discarded and the loop continues.  Returns the pids waited
on, in order. -/
def waitAll (waitO : Nat → Except Error Unit) : List Child → List Nat
  | [] => []
  | c :: rest =>
    match waitO c.pid with
    | .ok _ => c.pid :: waitAll waitO rest
    | .error _ => c.pid :: waitAll waitO rest

/-- The `Drop` teardown shared by all three pools (src/limit.rs lines
74-85, src/rot.rs lines 82-93, src/pool.rs lines 95-106): kill every
tracked process, then wait on every tracked process, ignoring the
errors of individual kill and wait calls.  The return type carries no
error, so teardown itself never raises. -/
def dropPool (killO waitO : Nat → Except Error Unit) (procs : List Child) :
    List Nat × List Nat :=
  (killAll killO procs, waitAll waitO procs)

/-- `impl Drop for Limiting` (src/limit.rs lines 74-85). -/
def Limiting.drop (killO waitO : Nat → Except Error Unit) (p : Limiting) :
    List Nat × List Nat :=
  dropPool killO waitO p.procs

/-- `impl Drop for Rotating` (src/rot.rs lines 82-93). -/
def Rotating.drop (killO waitO : Nat → Except Error Unit) (p : Rotating) :
    List Nat × List Nat :=
  dropPool killO waitO p.procs

/-- `impl Drop for Pool` (src/pool.rs lines 95-106). -/
def Pool.drop (killO waitO : Nat → Except Error Unit) (p : Pool) :
    List Nat × List Nat :=
  dropPool killO waitO p.procs

/-- Model of `proc.stdin.as_mut().ok_or(Error::StdinNotPiped)`
(src/lib.rs line 57). -/
def stdinHandle (c : Child) : Except Error Nat :=
  match c.stdin with
  | some h => .ok h
  | none => .error .stdinNotPiped

example : xstream [44] none [[97, 44, 98, 44, 44, 99]] =
    some [[97, 44], [98, 44], [44], [99]] := by decide

example : xstream [124, 124] none [[97, 124], [124, 98]] =
    some [[97, 124, 124, 98]] := by decide

example : xstream [44] (some [59]) [[97, 44, 98]] =
    some [[97, 59], [98]] := by decide

/-! ## Facts about `matchPos` -/

theorem matchPos_nil (delim : List Nat) : matchPos delim [] = none := rfl

theorem matchPos_some_le (delim : List Nat) :
    ∀ (buf : List Nat) (p : Nat), matchPos delim buf = some p →
      p + delim.length ≤ buf.length := by
  intro buf
  induction buf with
  | nil => intro p h; simp [matchPos] at h
  | cons b t ih =>
    intro p h
    rw [matchPos] at h
    split_ifs at h with htake
    · cases h
      have hlen := congrArg List.length htake
      simp [List.length_take] at hlen
      simp
      omega
    · cases hm : matchPos delim t with
      | none => rw [hm] at h; simp at h
      | some q =>
        rw [hm] at h
        simp at h
        have := ih q hm
        simp
        omega

theorem matchPos_some_occurs (delim : List Nat) :
    ∀ (buf : List Nat) (p : Nat), matchPos delim buf = some p →
      (buf.drop p).take delim.length = delim := by
  intro buf
  induction buf with
  | nil => intro p h; simp [matchPos] at h
  | cons b t ih =>
    intro p h
    rw [matchPos] at h
    split_ifs at h with htake
    · cases h; simpa using htake
    · cases hm : matchPos delim t with
      | none => rw [hm] at h; simp at h
      | some q =>
        rw [hm] at h
        simp at h
        subst h
        simpa using ih q hm

theorem matchPos_some_min (delim : List Nat) :
    ∀ (buf : List Nat) (p : Nat), matchPos delim buf = some p →
      ∀ j, (buf.drop j).take delim.length = delim → p ≤ j := by
  intro buf
  induction buf with
  | nil => intro p h; simp [matchPos] at h
  | cons b t ih =>
    intro p h j hj
    rw [matchPos] at h
    split_ifs at h with htake
    · cases h; exact Nat.zero_le j
    · cases hm : matchPos delim t with
      | none => rw [hm] at h; simp at h
      | some q =>
        rw [hm] at h
        simp at h
        subst h
        cases j with
        | zero => exact absurd (by simpa using hj) htake
        | succ j =>
          have := ih q hm j (by simpa using hj)
          omega

theorem matchPos_some_lt (delim : List Nat) :
    ∀ (buf : List Nat) (p : Nat), matchPos delim buf = some p →
      p < buf.length := by
  intro buf
  induction buf with
  | nil => intro p h; simp [matchPos] at h
  | cons b t ih =>
    intro p h
    rw [matchPos] at h
    split_ifs at h with htake
    · cases h; simp
    · cases hm : matchPos delim t with
      | none => rw [hm] at h; simp at h
      | some q =>
        rw [hm] at h
        simp at h
        have := ih q hm
        simp
        omega

theorem matchPos_none_occurs (delim : List Nat) (hd : delim ≠ []) :
    ∀ (buf : List Nat), matchPos delim buf = none →
      ∀ j, (buf.drop j).take delim.length ≠ delim := by
  intro buf
  induction buf with
  | nil =>
    intro _ j
    simp only [List.drop_nil, List.take_nil]
    exact fun h => hd h.symm
  | cons b t ih =>
    intro h j
    rw [matchPos] at h
    split_ifs at h with htake
    have hm : matchPos delim t = none := by
      cases hq : matchPos delim t with
      | none => rfl
      | some q => rw [hq] at h; simp at h
    cases j with
    | zero => simpa using htake
    | succ j => simpa using ih hm j

theorem matchPos_take_none (delim : List Nat) (buf : List Nat) (p : Nat)
    (h : matchPos delim buf = some p) :
    matchPos delim (buf.take p) = none := by
  cases hm : matchPos delim (buf.take p) with
  | none => rfl
  | some j =>
    exfalso
    have hle := matchPos_some_le delim (buf.take p) j hm
    have hlt := matchPos_some_lt delim (buf.take p) j hm
    have hocc := matchPos_some_occurs delim (buf.take p) j hm
    have hlen := List.length_take p buf
    have hplen : j + delim.length ≤ p := by omega
    have hocc2 : (buf.drop j).take delim.length = delim := by
      rw [List.drop_take] at hocc
      rw [List.take_take] at hocc
      rwa [Nat.min_eq_left (by omega)] at hocc
    have hmin := matchPos_some_min delim buf p h j hocc2
    omega

theorem matchPos_some_take_add (delim : List Nat) (buf : List Nat) (p : Nat)
    (h : matchPos delim buf = some p) :
    buf.take (p + delim.length) = buf.take p ++ delim := by
  rw [List.take_add]
  rw [matchPos_some_occurs delim buf p h]

theorem matchPos_drop_none (delim : List Nat) (hd : delim ≠ [])
    (buf : List Nat) (h : matchPos delim buf = none) (n : Nat) :
    matchPos delim (buf.drop n) = none := by
  cases hm : matchPos delim (buf.drop n) with
  | none => rfl
  | some j =>
    exfalso
    have hocc := matchPos_some_occurs delim (buf.drop n) j hm
    rw [List.drop_drop] at hocc
    exact matchPos_none_occurs delim hd buf h (n + j) hocc

/-! ## Facts about `scanConsume` -/

theorem scanConsume_le (delim buf : List Nat) (hd : delim ≠ []) :
    (scanConsume delim buf).1 ≤ buf.length := by
  have hdl : 0 < delim.length := List.length_pos.mpr hd
  unfold scanConsume
  cases h : matchPos delim buf with
  | none =>
    dsimp only
    split_ifs <;> omega
  | some p => simpa using matchPos_some_le delim buf p h

theorem scanConsume_pos (delim buf : List Nat) (hd : delim ≠ [])
    (hb : buf ≠ []) : 0 < (scanConsume delim buf).1 := by
  have hdl : 0 < delim.length := List.length_pos.mpr hd
  have hbl : 0 < buf.length := List.length_pos.mpr hb
  unfold scanConsume
  cases h : matchPos delim buf with
  | none =>
    dsimp only
    split_ifs <;> omega
  | some p => simp; omega

/-! ## Facts about `fillBuf` and the state -/

theorem stFlat_mk (r : List Nat) (rest : List (List Nat)) :
    stFlat ⟨r, rest⟩ = r ++ rest.flatten := rfl

theorem totalBytes_eq_length (s : SplitState) :
    totalBytes s = (stFlat s).length := by
  cases s with
  | mk r rest =>
    simp [totalBytes, stFlat, List.length_flatten]

theorem fillBuf_of_ne (s : SplitState) (h : s.remainder ≠ []) :
    fillBuf s = s := by
  cases s with
  | mk r rest =>
    cases r with
    | nil => exact absurd rfl h
    | cons b t => rfl

theorem fillBuf_nil_rest (r : List Nat) : fillBuf ⟨r, []⟩ = ⟨r, []⟩ := by
  cases r <;> rfl

theorem stFlat_fillBuf (s : SplitState) : stFlat (fillBuf s) = stFlat s := by
  cases s with
  | mk r rest =>
    cases r with
    | nil =>
      cases rest with
      | nil => rfl
      | cons c cs => simp [fillBuf, stFlat]
    | cons b t => rfl

theorem totalBytes_fillBuf (s : SplitState) :
    totalBytes (fillBuf s) = totalBytes s := by
  rw [totalBytes_eq_length, totalBytes_eq_length, stFlat_fillBuf]

theorem fillBuf_rest_mem (s : SplitState) :
    ∀ c ∈ (fillBuf s).rest, c ∈ s.rest := by
  cases s with
  | mk r rest =>
    cases r with
    | nil =>
      cases rest with
      | nil => intro c hc; exact hc
      | cons a as => intro c hc; exact List.mem_cons_of_mem a hc
    | cons b t => intro c hc; exact hc

theorem fillBuf_empty_stFlat (s : SplitState)
    (hc : ∀ c ∈ s.rest, c ≠ []) (h : (fillBuf s).remainder = []) :
    stFlat s = [] := by
  cases s with
  | mk r rest =>
    cases r with
    | nil =>
      cases rest with
      | nil => rfl
      | cons a as =>
        exact absurd h (by simpa [fillBuf] using hc a (List.mem_cons_self a as))
    | cons b t => simp [fillBuf] at h

/-! ## Facts about the scan loops -/

theorem stepOut_none (delim buf : List Nat) :
    stepOut delim none buf = buf.take (scanConsume delim buf).1 := by
  cases h : (scanConsume delim buf).2 <;> simp [stepOut, h]

theorem innerLoop_flat (delim : List Nat) (f : Nat) :
    ∀ s : SplitState, (innerLoop delim none f s).1 ++
      stFlat (innerLoop delim none f s).2 = stFlat s := by
  induction f with
  | zero => intro s; simp [innerLoop]
  | succ f ih =>
    intro s
    rw [innerLoop]
    by_cases h : (scanConsume delim (fillBuf s).remainder).2 = false ∧
        0 < (scanConsume delim (fillBuf s).remainder).1
    · simp only [h, and_self, if_true, List.append_assoc]
      rw [ih]
      rw [stepOut_none, stFlat_mk, ← List.append_assoc, List.take_append_drop]
      rw [← stFlat_mk ((fillBuf s).remainder), stFlat_fillBuf]
    · simp only [h, if_false]
      rw [stepOut_none, stFlat_mk, ← List.append_assoc, List.take_append_drop]
      rw [← stFlat_mk ((fillBuf s).remainder), stFlat_fillBuf]

theorem innerLoop_rest_mem (delim : List Nat) (wdelim : Option (List Nat))
    (f : Nat) : ∀ (s : SplitState) (c : List Nat),
      c ∈ (innerLoop delim wdelim f s).2.rest → c ∈ s.rest := by
  induction f with
  | zero => intro s c hc; exact hc
  | succ f ih =>
    intro s c hc
    rw [innerLoop] at hc
    by_cases h : (scanConsume delim (fillBuf s).remainder).2 = false ∧
        0 < (scanConsume delim (fillBuf s).remainder).1
    · simp only [h, and_self, if_true] at hc
      have h3 := ih _ c hc
      exact fillBuf_rest_mem s c h3
    · simp only [h, if_false] at hc
      exact fillBuf_rest_mem s c hc

theorem innerLoop_totalBytes_le (delim : List Nat)
    (wdelim : Option (List Nat)) (f : Nat) :
    ∀ s : SplitState, totalBytes (innerLoop delim wdelim f s).2 ≤
      totalBytes s := by
  induction f with
  | zero => intro s; exact Nat.le_refl _
  | succ f ih =>
    intro s
    rw [innerLoop]
    have hbase : totalBytes
        (⟨(fillBuf s).remainder.drop
            (scanConsume delim (fillBuf s).remainder).1,
          (fillBuf s).rest⟩ : SplitState) ≤ totalBytes s := by
      rw [← totalBytes_fillBuf s]
      have h1 : totalBytes (fillBuf s) =
          (fillBuf s).remainder.length +
            ((fillBuf s).rest.map List.length).sum := rfl
      have h2 := List.length_drop
        (scanConsume delim (fillBuf s).remainder).1 (fillBuf s).remainder
      simp only [totalBytes, h2]
      omega
    by_cases h : (scanConsume delim (fillBuf s).remainder).2 = false ∧
        0 < (scanConsume delim (fillBuf s).remainder).1
    · simp only [h, and_self, if_true]
      exact Nat.le_trans (ih _) hbase
    · simp only [h, if_false]
      exact hbase

theorem innerLoop_totalBytes_lt (delim : List Nat)
    (wdelim : Option (List Nat)) (hd : delim ≠ []) (f : Nat)
    (s : SplitState) (hf : 0 < f) (hb : (fillBuf s).remainder ≠ []) :
    totalBytes (innerLoop delim wdelim f s).2 < totalBytes s := by
  cases f with
  | zero => omega
  | succ f =>
    rw [innerLoop]
    have hpos := scanConsume_pos delim (fillBuf s).remainder hd hb
    have hblen : 0 < (fillBuf s).remainder.length := List.length_pos.mpr hb
    have hbase : totalBytes
        (⟨(fillBuf s).remainder.drop
            (scanConsume delim (fillBuf s).remainder).1,
          (fillBuf s).rest⟩ : SplitState) < totalBytes s := by
      rw [← totalBytes_fillBuf s]
      have h1 : totalBytes (fillBuf s) =
          (fillBuf s).remainder.length +
            ((fillBuf s).rest.map List.length).sum := rfl
      have h2 := List.length_drop
        (scanConsume delim (fillBuf s).remainder).1 (fillBuf s).remainder
      simp only [totalBytes, h2]
      omega
    by_cases h : (scanConsume delim (fillBuf s).remainder).2 = false ∧
        0 < (scanConsume delim (fillBuf s).remainder).1
    · simp only [h, and_self, if_true]
      exact Nat.lt_of_le_of_lt (innerLoop_totalBytes_le delim wdelim f _) hbase
    · simp only [h, if_false]
      exact hbase

theorem outerLoop_flatten (delim : List Nat) (hd : delim ≠ []) :
    ∀ (f : Nat) (s : SplitState), totalBytes s < f →
      (∀ c ∈ s.rest, c ≠ []) →
      (outerLoop delim none f s).flatten = stFlat s := by
  intro f
  induction f with
  | zero => intro s hf; omega
  | succ f ih =>
    intro s hf hc
    rw [outerLoop]
    by_cases h1 : (fillBuf s).remainder = []
    · simp only [h1, if_true, List.flatten_nil]
      exact (fillBuf_empty_stFlat s hc h1).symm
    · simp only [h1, if_false, List.flatten_cons]
      have hfix : fillBuf (fillBuf s) = fillBuf s := fillBuf_of_ne _ h1
      have hlt : totalBytes (innerLoop delim none
          (totalBytes (fillBuf s) + 1) (fillBuf s)).2 <
            totalBytes (fillBuf s) := by
        apply innerLoop_totalBytes_lt delim none hd _ _ (by omega)
        rw [hfix]
        exact h1
      have hrec := ih (innerLoop delim none
          (totalBytes (fillBuf s) + 1) (fillBuf s)).2
        (by have h5 := totalBytes_fillBuf s; omega)
        (fun c hcm => hc c (fillBuf_rest_mem s c
          (innerLoop_rest_mem delim none _ _ c hcm)))
      rw [hrec]
      rw [innerLoop_flat delim _ (fillBuf s), stFlat_fillBuf]

/-! ## Claims about the scanner -/

/-- C1: for every input byte stream (delivered in non-empty read chunks)
and every delimiter of length at least 1, running `xstream` with no
write-delimiter writes every input byte downstream exactly once, in
original order: the concatenation, in acquisition order, of all bytes
written to all processes equals the original input exactly. -/
theorem xstream_roundtrip (delim : List Nat) (chunks : List (List Nat))
    (hd : delim ≠ []) (hc : ∀ c ∈ chunks, c ≠ []) :
    (xstream delim none chunks).map List.flatten = some chunks.flatten := by
  cases delim with
  | nil => exact absurd rfl hd
  | cons d0 ds =>
    have hout := outerLoop_flatten (d0 :: ds) hd
      (totalBytes ⟨[], chunks⟩ + 1) ⟨[], chunks⟩ (by omega) hc
    simp only [xstream, Option.map_some']
    rw [hout]
    rfl

theorem xstream_roundtrip_witness :
    ([10] : List Nat) ≠ [] ∧
      (∀ c ∈ [[97, 10, 98], [99]], c ≠ ([] : List Nat)) ∧
      (xstream [10] none [[97, 10, 98], [99]]).map List.flatten =
        some [97, 10, 98, 99] :=
  ⟨by decide, by decide,
    xstream_roundtrip [10] [[97, 10, 98], [99]] (by decide) (by decide)⟩

/-- C2: evaluation of the scan loop at the failing input.  Input bytes
are delivered in two read chunks, and the chunk boundary falls in the
middle of the two-byte delimiter.  The code writes all four bytes into a
single segment, never detecting the straddled occurrence: the bytes
written to the one process contain a full delimiter occurrence (at index
1).  The claimed behaviour (detect the straddled occurrence as a single
match and consume nothing while the buffer is shorter than the delimiter
and the source is not exhausted) does not hold: when the buffered bytes
are shorter than the delimiter the code consumes and writes all of them
(src/lib.rs lines 64-66). -/
theorem xstream_straddle_missed :
    xstream [124, 124] none [[97, 124], [124, 98]] =
        some [[97, 124, 124, 98]] ∧
      matchPos [124, 124] [97, 124, 124, 98] = some 1 := by decide

/-- C3: in the scan loop, whenever the buffered bytes contain no full
occurrence of the delimiter and are at least as long as the delimiter,
exactly `buf.len() - (len(d) - 1)` bytes are written and consumed,
retaining precisely the trailing `len(d) - 1` bytes, and the written
bytes together with the retained bytes partition the buffer, so no byte
is written twice. -/
theorem scan_retains_tail (delim buf : List Nat)
    (wdelim : Option (List Nat)) (hd : delim ≠ [])
    (hnone : matchPos delim buf = none)
    (hlen : delim.length ≤ buf.length) :
    scanConsume delim buf = (buf.length - (delim.length - 1), false) ∧
      stepOut delim wdelim buf =
        buf.take (buf.length - (delim.length - 1)) ∧
      (buf.drop (buf.length - (delim.length - 1))).length =
        delim.length - 1 ∧
      stepOut delim wdelim buf ++
        buf.drop (buf.length - (delim.length - 1)) = buf := by
  have hdl : 0 < delim.length := List.length_pos.mpr hd
  have h1 : scanConsume delim buf =
      (buf.length - (delim.length - 1), false) := by
    unfold scanConsume
    rw [hnone, if_neg (Nat.not_lt.mpr hlen)]
    have harith : buf.length - delim.length + 1 =
        buf.length - (delim.length - 1) := by omega
    rw [harith]
  have h2 : stepOut delim wdelim buf =
      buf.take (buf.length - (delim.length - 1)) := by
    cases wdelim with
    | none => rw [stepOut_none, h1]
    | some w => simp [stepOut, h1]
  refine ⟨h1, h2, ?_, ?_⟩
  · rw [List.length_drop]
    omega
  · rw [h2, List.take_append_drop]

theorem scan_retains_tail_witness :
    ([1, 2] : List Nat) ≠ [] ∧ matchPos [1, 2] [5, 6, 7] = none ∧
      ([1, 2] : List Nat).length ≤ ([5, 6, 7] : List Nat).length ∧
      scanConsume [1, 2] [5, 6, 7] = (2, false) :=
  ⟨by decide, by decide, by decide,
    (scan_retains_tail [1, 2] [5, 6, 7] none (by decide) (by decide)
      (by decide)).1⟩

/-! ## Single-chunk characterization -/

theorem scanConsume_none_snd (delim buf : List Nat)
    (h : matchPos delim buf = none) : (scanConsume delim buf).2 = false := by
  unfold scanConsume
  rw [h]

theorem scanConsume_some (delim buf : List Nat) (p : Nat)
    (h : matchPos delim buf = some p) :
    scanConsume delim buf = (p + delim.length, true) := by
  unfold scanConsume
  rw [h]

theorem scanConsume_nil (delim : List Nat) (hd : delim ≠ []) :
    scanConsume delim [] = (0, false) := by
  have hdl : 0 < delim.length := List.length_pos.mpr hd
  unfold scanConsume
  rw [matchPos_nil]
  simp [hdl]

theorem stepOut_of_false (delim buf : List Nat) (wdelim : Option (List Nat))
    (h : (scanConsume delim buf).2 = false) :
    stepOut delim wdelim buf = buf.take (scanConsume delim buf).1 := by
  cases wdelim with
  | none => exact stepOut_none delim buf
  | some w => simp [stepOut, h]

theorem stepOut_hit (delim buf : List Nat) (wdelim : Option (List Nat))
    (p : Nat) (h : matchPos delim buf = some p) :
    stepOut delim wdelim buf = buf.take p ++ wdelim.getD delim := by
  cases wdelim with
  | none =>
    rw [stepOut_none]
    rw [scanConsume_some delim buf p h]
    exact matchPos_some_take_add delim buf p h
  | some w =>
    simp only [stepOut, scanConsume_some delim buf p h, Option.getD_some]
    rw [Nat.add_sub_cancel]

theorem innerDump (delim : List Nat) (wdelim : Option (List Nat))
    (hd : delim ≠ []) :
    ∀ (f : Nat) (r : List Nat), r.length < f → matchPos delim r = none →
      innerLoop delim wdelim f ⟨r, []⟩ = (r, ⟨[], []⟩) := by
  intro f
  induction f with
  | zero => intro r hr hnone; omega
  | succ f ih =>
    intro r hr hnone
    rw [innerLoop]
    simp only [fillBuf_nil_rest]
    by_cases hr0 : r = []
    · subst hr0
      rw [if_neg]
      · rw [stepOut_of_false delim [] wdelim
          (by rw [scanConsume_nil delim hd])]
        rw [scanConsume_nil delim hd]
        rfl
      · rw [scanConsume_nil delim hd]
        simp
    · have hsnd := scanConsume_none_snd delim r hnone
      have hpos := scanConsume_pos delim r hd hr0
      rw [if_pos ⟨hsnd, hpos⟩]
      have hlen : (r.drop (scanConsume delim r).1).length < f := by
        rw [List.length_drop]
        have : 0 < r.length := List.length_pos.mpr hr0
        omega
      have hdropnone := matchPos_drop_none delim hd r hnone
        (scanConsume delim r).1
      rw [ih _ hlen hdropnone]
      rw [stepOut_of_false delim r wdelim hsnd]
      rw [List.take_append_drop]

theorem innerHit (delim : List Nat) (wdelim : Option (List Nat)) (f : Nat)
    (r : List Nat) (p : Nat) (hf : 0 < f) (h : matchPos delim r = some p) :
    innerLoop delim wdelim f ⟨r, []⟩ =
      (stepOut delim wdelim r, ⟨r.drop (p + delim.length), []⟩) := by
  cases f with
  | zero => omega
  | succ f =>
    rw [innerLoop]
    simp only [fillBuf_nil_rest]
    rw [if_neg]
    · rw [scanConsume_some delim r p h]
    · rw [scanConsume_some delim r p h]
      simp

theorem outer_empty (delim : List Nat) (wdelim : Option (List Nat))
    (f : Nat) : outerLoop delim wdelim f ⟨[], []⟩ = [] := by
  cases f with
  | zero => rfl
  | succ f => rw [outerLoop]; rfl

theorem outer_eq_of_fillBuf (delim : List Nat) (wdelim : Option (List Nat))
    (f : Nat) (s t : SplitState) (h : fillBuf s = fillBuf t) :
    outerLoop delim wdelim f s = outerLoop delim wdelim f t := by
  cases f with
  | zero => rfl
  | succ f => rw [outerLoop, h]; rfl

theorem segmentsSpecF_nil (delim : List Nat) :
    ∀ f : Nat, segmentsSpecF delim f [] = [[]] := by
  intro f
  cases f with
  | zero => rfl
  | succ f => rw [segmentsSpecF, matchPos_nil]

theorem segmentsSpecF_ne_nil (delim : List Nat) :
    ∀ (f : Nat) (input : List Nat), segmentsSpecF delim f input ≠ [] := by
  intro f input
  cases f with
  | zero => simp [segmentsSpecF]
  | succ f =>
    rw [segmentsSpecF]
    cases matchPos delim input <;> simp

theorem segmentsSpec_ne_nil (delim input : List Nat) :
    segmentsSpec delim input ≠ [] :=
  segmentsSpecF_ne_nil delim input.length input

theorem segmentsSpecF_fuel (delim : List Nat) (hd : delim ≠ []) :
    ∀ (f g : Nat) (input : List Nat), input.length ≤ f →
      input.length ≤ g →
      segmentsSpecF delim f input = segmentsSpecF delim g input := by
  have hdl : 0 < delim.length := List.length_pos.mpr hd
  intro f
  induction f with
  | zero =>
    intro g input hf hg
    have hnil : input = [] := List.eq_nil_of_length_eq_zero (by omega)
    subst hnil
    rw [segmentsSpecF_nil, segmentsSpecF_nil]
  | succ f ih =>
    intro g input hf hg
    cases g with
    | zero =>
      have hnil : input = [] := List.eq_nil_of_length_eq_zero (by omega)
      subst hnil
      rw [segmentsSpecF_nil, segmentsSpecF_nil]
    | succ g =>
      cases hm : matchPos delim input with
      | none => simp only [segmentsSpecF, hm]
      | some p =>
        simp only [segmentsSpecF, hm]
        have hlt := matchPos_some_lt delim input p hm
        have h1 : (input.drop (p + delim.length)).length ≤ f := by
          rw [List.length_drop]; omega
        have h2 : (input.drop (p + delim.length)).length ≤ g := by
          rw [List.length_drop]; omega
        rw [ih g _ h1 h2]

theorem segmentsSpec_none (delim input : List Nat)
    (h : matchPos delim input = none) : segmentsSpec delim input = [input] := by
  unfold segmentsSpec
  cases input with
  | nil => rfl
  | cons b t => simp [segmentsSpecF, h]

theorem segmentsSpec_some (delim input : List Nat) (p : Nat)
    (hd : delim ≠ []) (h : matchPos delim input = some p) :
    segmentsSpec delim input =
      input.take p :: segmentsSpec delim (input.drop (p + delim.length)) := by
  have hdl : 0 < delim.length := List.length_pos.mpr hd
  cases input with
  | nil => simp [matchPos] at h
  | cons b t =>
    have hlt := matchPos_some_lt delim (b :: t) p h
    unfold segmentsSpec
    simp only [List.length_cons, segmentsSpecF, h]
    rw [segmentsSpecF_fuel delim hd t.length
      ((b :: t).drop (p + delim.length)).length _
      (by rw [List.length_drop]; simp at hlt ⊢; omega) le_rfl]

theorem joinWith_cons_cons (W p q : List Nat) (t : List (List Nat)) :
    joinWith W (p :: q :: t) = p ++ W ++ joinWith W (q :: t) := rfl

theorem joinWith_segments (delim : List Nat) (hd : delim ≠ []) :
    ∀ (n : Nat) (input : List Nat), input.length ≤ n →
      joinWith delim (segmentsSpec delim input) = input := by
  have hdl : 0 < delim.length := List.length_pos.mpr hd
  intro n
  induction n with
  | zero =>
    intro input h
    have hnil : input = [] := List.eq_nil_of_length_eq_zero (by omega)
    subst hnil
    rw [segmentsSpec_none delim [] (matchPos_nil delim)]
    rfl
  | succ n ih =>
    intro input h
    cases hm : matchPos delim input with
    | none => rw [segmentsSpec_none delim input hm]; rfl
    | some p =>
      rw [segmentsSpec_some delim input p hd hm]
      have hlt := matchPos_some_lt delim input p hm
      have hne := segmentsSpec_ne_nil delim (input.drop (p + delim.length))
      cases hparts : segmentsSpec delim (input.drop (p + delim.length)) with
      | nil => exact absurd hparts hne
      | cons a t =>
        rw [joinWith_cons_cons, ← hparts]
        rw [ih _ (by rw [List.length_drop]; omega)]
        conv_rhs => rw [← List.take_append_drop (p + delim.length) input]
        rw [matchPos_some_take_add delim input p hm]

theorem segmentsSpec_no_occ (delim : List Nat) (hd : delim ≠ []) :
    ∀ (n : Nat) (input : List Nat), input.length ≤ n →
      ∀ seg ∈ segmentsSpec delim input, matchPos delim seg = none := by
  intro n
  induction n with
  | zero =>
    intro input h seg hseg
    have hnil : input = [] := List.eq_nil_of_length_eq_zero (by omega)
    subst hnil
    rw [segmentsSpec_none delim [] (matchPos_nil delim)] at hseg
    simp at hseg
    subst hseg
    exact matchPos_nil delim
  | succ n ih =>
    intro input h seg hseg
    cases hm : matchPos delim input with
    | none =>
      rw [segmentsSpec_none delim input hm] at hseg
      simp at hseg
      subst hseg
      exact hm
    | some p =>
      rw [segmentsSpec_some delim input p hd hm] at hseg
      have hlt := matchPos_some_lt delim input p hm
      have hdl : 0 < delim.length := List.length_pos.mpr hd
      rcases List.mem_cons.mp hseg with h1 | h2
      · subst h1
        exact matchPos_take_none delim input p hm
      · exact ih _ (by rw [List.length_drop]; omega) seg h2

theorem renderSegs_cons_ne (W p : List Nat) (t : List (List Nat))
    (h : t ≠ []) : renderSegs W (p :: t) = (p ++ W) :: renderSegs W t := by
  cases t with
  | nil => exact absurd rfl h
  | cons q t2 => rfl

theorem flatten_renderSegs (W : List Nat) :
    ∀ parts : List (List Nat),
      (renderSegs W parts).flatten = joinWith W parts := by
  intro parts
  induction parts with
  | nil => rfl
  | cons p t ih =>
    cases t with
    | nil => by_cases hp : p = [] <;> simp [renderSegs, joinWith, hp]
    | cons q t2 =>
      rw [renderSegs_cons_ne W p (q :: t2) (by simp)]
      rw [List.flatten_cons, ih, joinWith_cons_cons]

theorem renderSegs_empty_W :
    ∀ parts : List (List Nat), renderSegs [] parts =
      if parts.getLast?.getD [] = [] then parts.dropLast else parts := by
  intro parts
  induction parts with
  | nil => rfl
  | cons p t ih =>
    cases t with
    | nil => by_cases hp : p = [] <;> simp [renderSegs, hp]
    | cons q t2 =>
      rw [renderSegs_cons_ne [] p (q :: t2) (by simp)]
      rw [List.append_nil, ih]
      by_cases hl : ((q :: t2).getLast?).getD [] = []
      · simp [hl, List.getLast?_cons_cons]
      · simp [hl, List.getLast?_cons_cons]

theorem outer_single (delim : List Nat) (wdelim : Option (List Nat))
    (hd : delim ≠ []) :
    ∀ (f : Nat) (r : List Nat), r.length < f →
      outerLoop delim wdelim f ⟨r, []⟩ =
        renderSegs (wdelim.getD delim) (segmentsSpec delim r) := by
  intro f
  induction f with
  | zero => intro r h; omega
  | succ f ih =>
    intro r hr
    rw [outerLoop]
    simp only [fillBuf_nil_rest]
    by_cases hr0 : r = []
    · subst hr0
      rw [if_pos rfl]
      rw [segmentsSpec_none delim [] (matchPos_nil delim)]
      simp [renderSegs]
    · rw [if_neg hr0]
      have htb : totalBytes (⟨r, []⟩ : SplitState) = r.length := by
        simp [totalBytes]
      rw [htb]
      cases hm : matchPos delim r with
      | none =>
        rw [innerDump delim wdelim hd (r.length + 1) r (by omega) hm]
        dsimp only
        rw [outer_empty]
        rw [segmentsSpec_none delim r hm]
        simp [renderSegs, hr0]
      | some p =>
        rw [innerHit delim wdelim (r.length + 1) r p (by omega) hm]
        dsimp only
        rw [stepOut_hit delim r wdelim p hm]
        have hlt := matchPos_some_lt delim r p hm
        have hdl : 0 < delim.length := List.length_pos.mpr hd
        rw [ih (r.drop (p + delim.length))
          (by rw [List.length_drop]; omega)]
        rw [segmentsSpec_some delim r p hd hm]
        rw [renderSegs_cons_ne _ _ _ (segmentsSpec_ne_nil delim _)]

theorem xstream_single (d0 : Nat) (ds : List Nat)
    (wdelim : Option (List Nat)) (input : List Nat) :
    xstream (d0 :: ds) wdelim [input] =
      some (renderSegs (wdelim.getD (d0 :: ds))
        (segmentsSpec (d0 :: ds) input)) := by
  show some (outerLoop (d0 :: ds) wdelim
      (totalBytes ⟨[], [input]⟩ + 1) ⟨[], [input]⟩) = _
  rw [outer_eq_of_fillBuf (d0 :: ds) wdelim _ ⟨[], [input]⟩ ⟨input, []⟩
    (by cases input <;> rfl)]
  have htb : totalBytes (⟨[], [input]⟩ : SplitState) = input.length := by
    simp [totalBytes]
  rw [htb]
  exact congrArg some
    (outer_single (d0 :: ds) wdelim (by simp) (input.length + 1) input
      (by omega))

/-- C4 (amended): for a delimiter of length at least 1 and an input
delivered as a single read chunk, the scanner produces the parts of the
input split at each leftmost non-overlapping delimiter occurrence — so
with `k` occurrences yielding `k + 1` parts, one process is acquired per
part — except that the final part is omitted when it is empty (input
empty or ending in the delimiter); the number of segments is therefore
`k + 1` when the final part is non-empty and `k` when it is empty, and
no segment ever contains a full occurrence of the delimiter.  (One
output record per acquired process; stated with the empty
write-delimiter so that the segment bytes are exactly the segment
content.) -/
theorem xstream_segment_count (d0 : Nat) (ds input : List Nat) :
    xstream (d0 :: ds) (some []) [input] =
        some (if (segmentsSpec (d0 :: ds) input).getLast?.getD [] = []
          then (segmentsSpec (d0 :: ds) input).dropLast
          else segmentsSpec (d0 :: ds) input) ∧
      (xstream (d0 :: ds) (some []) [input]).map List.length =
        some ((segmentsSpec (d0 :: ds) input).length -
          (if (segmentsSpec (d0 :: ds) input).getLast?.getD [] = []
            then 1 else 0)) ∧
      ∀ seg ∈ segmentsSpec (d0 :: ds) input,
        matchPos (d0 :: ds) seg = none := by
  have hbase : xstream (d0 :: ds) (some []) [input] =
      some (if (segmentsSpec (d0 :: ds) input).getLast?.getD [] = []
        then (segmentsSpec (d0 :: ds) input).dropLast
        else segmentsSpec (d0 :: ds) input) := by
    rw [xstream_single d0 ds (some []) input]
    rw [show (some ([] : List Nat)).getD (d0 :: ds) = [] from rfl]
    rw [renderSegs_empty_W]
  refine ⟨hbase, ?_, ?_⟩
  · rw [hbase]
    by_cases hl : (segmentsSpec (d0 :: ds) input).getLast?.getD [] = []
    · simp [hl, List.length_dropLast]
    · simp [hl]
  · exact segmentsSpec_no_occ (d0 :: ds) (by simp) input.length input le_rfl

/-- C4 counterexample: the input `","` (`[44]`) contains exactly one
occurrence of the delimiter `","` (`[44]`), so the claim requires
`k + 1 = 2` segments (the second one empty); the code acquires only one
process and produces one (empty) segment — the trailing empty segment
after a final delimiter is never produced, because the outer loop stops
as soon as the source is exhausted. -/
theorem xstream_trailing_empty_segment_dropped :
    (xstream [44] (some []) [[44]]).map List.length = some 1 ∧
      (segmentsSpec [44] [44]).length = 2 := by decide

/-- C5: with a write-delimiter `w` configured, the bytes written
downstream are exactly the delimiter-free parts of the input joined by
`w`: every detected boundary is written as `w`, never as the original
delimiter (the parts rejoined with the original delimiter reproduce the
input, and no part contains an occurrence of the delimiter), while the
segment content bytes are written unchanged.  Stated for an input
delivered as a single read chunk, in which every occurrence of the
delimiter is detected. -/
theorem xstream_write_delim_subst (d0 : Nat) (ds input w : List Nat) :
    (xstream (d0 :: ds) (some w) [input]).map List.flatten =
        some (joinWith w (segmentsSpec (d0 :: ds) input)) ∧
      joinWith (d0 :: ds) (segmentsSpec (d0 :: ds) input) = input ∧
      ∀ seg ∈ segmentsSpec (d0 :: ds) input,
        matchPos (d0 :: ds) seg = none := by
  refine ⟨?_, ?_, ?_⟩
  · rw [xstream_single d0 ds (some w) input]
    simp only [Option.map_some']
    rw [flatten_renderSegs]
    rfl
  · exact joinWith_segments (d0 :: ds) (by simp) input.length input le_rfl
  · exact segmentsSpec_no_occ (d0 :: ds) (by simp) input.length input le_rfl

/-! ## Facts about the pools -/

theorem limiting_get_not_full (oracle : Nat → WaitOutcome) (p : Limiting)
    (h : ¬(p.max_procs ≠ 0 ∧ p.procs.length = p.max_procs)) :
    Limiting.get oracle p =
      (.ok (p.command.spawn p.nextPid),
       { p with procs := p.procs ++ [p.command.spawn p.nextPid],
                nextPid := p.nextPid + 1 }) := by
  unfold Limiting.get
  rw [if_neg h]

theorem limiting_get_full_err (oracle : Nat → WaitOutcome) (p : Limiting)
    (oldest : Child) (rest : List Child) (e : Error)
    (hn0 : p.max_procs ≠ 0) (hlen : p.procs.length = p.max_procs)
    (hp : p.procs = oldest :: rest)
    (hw : wait_proc oracle oldest = .error e) :
    Limiting.get oracle p = (.error e, { p with procs := rest }) := by
  unfold Limiting.get
  rw [if_pos ⟨hn0, hlen⟩, hp]
  simp only [hw]

theorem limiting_get_full_ok (oracle : Nat → WaitOutcome) (p : Limiting)
    (oldest : Child) (rest : List Child)
    (hn0 : p.max_procs ≠ 0) (hlen : p.procs.length = p.max_procs)
    (hp : p.procs = oldest :: rest)
    (hw : wait_proc oracle oldest = .ok ()) :
    Limiting.get oracle p =
      (.ok (p.command.spawn p.nextPid),
       { p with procs := rest ++ [p.command.spawn p.nextPid],
                nextPid := p.nextPid + 1 }) := by
  unfold Limiting.get
  rw [if_pos ⟨hn0, hlen⟩, hp]
  simp only [hw]

theorem except_cases (x : Except Error Unit) :
    (∃ e, x = .error e) ∨ x = .ok () := by
  cases x with
  | error e => exact Or.inl ⟨e, rfl⟩
  | ok u => cases u; exact Or.inr rfl

theorem sweep_ok (oracle : Nat → WaitOutcome) :
    ∀ l : List Child, (sweep oracle l).1 = .ok () →
      (sweep oracle l).2 = [] := by
  intro l
  induction l with
  | nil => intro _; rfl
  | cons c rest ih =>
    intro h
    rw [sweep] at h ⊢
    rcases except_cases (wait_proc oracle c) with ⟨e, hw⟩ | hw
    · rw [hw] at h
      simp at h
    · rw [hw] at h ⊢
      exact ih h

theorem sweep_error (oracle : Nat → WaitOutcome) :
    ∀ (l : List Child) (e : Error), (sweep oracle l).1 = .error e →
      ∃ pre c, l = pre ++ c :: (sweep oracle l).2 ∧
        (∀ x ∈ pre, wait_proc oracle x = .ok ()) ∧
        wait_proc oracle c = .error e := by
  intro l
  induction l with
  | nil => intro e h; simp [sweep] at h
  | cons c rest ih =>
    intro e h
    rw [sweep] at h
    rcases except_cases (wait_proc oracle c) with ⟨e2, hw⟩ | hw
    · rw [hw] at h
      simp at h
      subst h
      refine ⟨[], c, ?_, ?_, hw⟩
      · rw [sweep, hw]
        rfl
      · intro x hx; simp at hx
    · rw [hw] at h
      obtain ⟨pre, c2, heq, hpre, hc2⟩ := ih e h
      refine ⟨c :: pre, c2, ?_, ?_, hc2⟩
      · rw [sweep, hw]
        rw [List.cons_append, ← heq]
      · intro x hx
        rcases List.mem_cons.mp hx with h1 | h2
        · subst h1; exact hw
        · exact hpre x h2

theorem sweep_error_shorter (oracle : Nat → WaitOutcome) (l : List Child)
    (e : Error) (h : (sweep oracle l).1 = .error e) :
    (sweep oracle l).2.length < l.length := by
  obtain ⟨pre, c, heq, -, -⟩ := sweep_error oracle l e h
  have hlen := congrArg List.length heq
  simp at hlen
  omega

theorem limiting_joinRepeat_empty (oracle : Nat → WaitOutcome) :
    ∀ (fuel : Nat) (p : Limiting), p.procs.length < fuel →
      (Limiting.joinRepeat oracle fuel p).procs = [] := by
  intro fuel
  induction fuel with
  | zero => intro p h; omega
  | succ fuel ih =>
    intro p h
    rw [Limiting.joinRepeat]
    simp only [Limiting.join]
    cases hs : (sweep oracle p.procs.reverse).1 with
    | ok u =>
      cases u
      have h2 := sweep_ok oracle p.procs.reverse hs
      simp [h2]
    | error e =>
      have h2 := sweep_error_shorter oracle p.procs.reverse e hs
      rw [List.length_reverse] at h2
      exact ih _ (by simpa using by omega)

theorem rotating_joinRepeat_empty (oracle : Nat → WaitOutcome) :
    ∀ (fuel : Nat) (p : Rotating), p.procs.length < fuel →
      (Rotating.joinRepeat oracle fuel p).procs = [] := by
  intro fuel
  induction fuel with
  | zero => intro p h; omega
  | succ fuel ih =>
    intro p h
    rw [Rotating.joinRepeat]
    simp only [Rotating.join]
    cases hs : (sweep oracle p.procs.reverse).1 with
    | ok u =>
      cases u
      have h2 := sweep_ok oracle p.procs.reverse hs
      simp [h2]
    | error e =>
      have h2 := sweep_error_shorter oracle p.procs.reverse e hs
      rw [List.length_reverse] at h2
      exact ih _ (by simpa using by omega)

theorem pool_joinRepeat_empty (oracle : Nat → WaitOutcome) :
    ∀ (fuel : Nat) (p : Pool), p.procs.length < fuel →
      (Pool.joinRepeat oracle fuel p).procs = [] := by
  intro fuel
  induction fuel with
  | zero => intro p h; omega
  | succ fuel ih =>
    intro p h
    rw [Pool.joinRepeat]
    simp only [Pool.join]
    cases hs : (sweep oracle p.procs).1 with
    | ok u =>
      cases u
      have h2 := sweep_ok oracle p.procs hs
      simp [h2]
    | error e =>
      have h2 := sweep_error_shorter oracle p.procs e hs
      exact ih _ (by simpa using by omega)

theorem killAll_eq (killO : Nat → Except Error Unit) :
    ∀ procs : List Child, killAll killO procs = procs.map Child.pid := by
  intro procs
  induction procs with
  | nil => rfl
  | cons c rest ih =>
    cases hk : killO c.pid with
    | ok u => simp [killAll, hk, ih]
    | error e => simp [killAll, hk, ih]

theorem waitAll_eq (waitO : Nat → Except Error Unit) :
    ∀ procs : List Child, waitAll waitO procs = procs.map Child.pid := by
  intro procs
  induction procs with
  | nil => rfl
  | cons c rest ih =>
    cases hk : waitO c.pid with
    | ok u => simp [waitAll, hk, ih]
    | error e => simp [waitAll, hk, ih]

theorem rotating_state_zero (cmd : Command) :
    ∀ m : Nat, Rotating.iterate (Rotating.new cmd 0) m =
      ⟨(List.range m).map (Command.spawn { cmd with stdinPiped := true }),
       0, { cmd with stdinPiped := true }, 0, m⟩ := by
  intro m
  induction m with
  | zero => simp [Rotating.iterate, Rotating.new]
  | succ m ih =>
    rw [Rotating.iterate, ih]
    unfold Rotating.get
    rw [if_pos rfl]
    simp [List.range_succ]

theorem rotating_state (cmd : Command) (N : Nat) (hN : 0 < N) :
    ∀ m : Nat, Rotating.iterate (Rotating.new cmd N) m =
      ⟨(List.range (min m N)).map
        (Command.spawn { cmd with stdinPiped := true }),
       N, { cmd with stdinPiped := true }, m % N, min m N⟩ := by
  intro m
  induction m with
  | zero => simp [Rotating.iterate, Rotating.new]
  | succ m ih =>
    rw [Rotating.iterate, ih]
    unfold Rotating.get
    dsimp only
    rw [if_neg (by omega)]
    by_cases hm : m < N
    · rw [if_pos (by simp; omega)]
      rw [Nat.mod_eq_of_lt hm]
      rw [Nat.min_eq_left (by omega)]
      rw [Nat.min_eq_left (by omega)]
      simp [List.range_succ]
    · rw [if_neg (by simp; omega)]
      have hmod : (m % N + 1) % N = (m + 1) % N := by
        conv_rhs => rw [Nat.add_mod]
        rcases Nat.lt_or_ge 1 N with h1 | h1
        · rw [Nat.mod_eq_of_lt h1]
        · have hN1 : N = 1 := by omega
          subst hN1
          simp
      have hmin : min m N = min (m + 1) N := by omega
      rw [hmod, hmin]

theorem rotating_get_child_zero (cmd : Command) (i : Nat) :
    (Rotating.get (Rotating.iterate (Rotating.new cmd 0) i)).1 =
      Command.spawn { cmd with stdinPiped := true } i := by
  rw [rotating_state_zero cmd i]
  unfold Rotating.get
  rw [if_pos rfl]

theorem rotating_get_child (cmd : Command) (N : Nat) (hN : 0 < N)
    (i : Nat) :
    (Rotating.get (Rotating.iterate (Rotating.new cmd N) i)).1 =
      Command.spawn { cmd with stdinPiped := true } (i % N) := by
  rw [rotating_state cmd N hN i]
  unfold Rotating.get
  dsimp only
  rw [if_neg (by omega)]
  by_cases him : i < N
  · rw [if_pos (by simp; omega)]
    rw [Nat.mod_eq_of_lt him]
    rw [Nat.min_eq_left (by omega)]
    rw [List.getD_append_right _ _ _ _ (by simp)]
    simp
  · rw [if_neg (by simp; omega)]
    rw [Nat.min_eq_right (by omega)]
    rw [List.getD_eq_getElem _ _ (by simpa using Nat.mod_lt i hN)]
    simp

theorem run_length (p : Rotating) :
    ∀ m : Nat, (Rotating.run p m).length = m := by
  intro m
  induction m with
  | zero => rfl
  | succ m ih => rw [Rotating.run]; simp [ih]

theorem run_get? (p : Rotating) : ∀ (m i : Nat), i < m →
    (Rotating.run p m).get? i =
      some (Rotating.get (Rotating.iterate p i)).1 := by
  intro m
  induction m with
  | zero => intro i h; omega
  | succ m ih =>
    intro i h
    rw [Rotating.run]
    by_cases him : i < m
    · rw [List.get?_append (by rw [run_length]; exact him)]
      exact ih i him
    · have hi : i = m := by omega
      subst hi
      rw [List.get?_append_right (by simp [run_length])]
      simp [run_length]

/-! ## Claims about the pools -/

/-- C6: for the `Limiting` pool with bound `N ≠ 0`: every successful
`get` spawns a brand-new process (its pid is distinct from every tracked
pid, and it becomes tracked); if the number of tracked processes equals
the bound at the time of the call, the oldest tracked process is waited
on and removed before the spawn, and its failure propagates with nothing
spawned; consequently the number of tracked processes never exceeds the
bound. -/
theorem limiting_get_contract (oracle : Nat → WaitOutcome) (p : Limiting)
    (hN : p.max_procs ≠ 0)
    (hwf : ∀ c ∈ p.procs, c.pid < p.nextPid) :
    (∀ c p1, Limiting.get oracle p = (.ok c, p1) →
      c = p.command.spawn p.nextPid ∧
      (∀ c' ∈ p.procs, c'.pid ≠ c.pid) ∧
      c ∈ p1.procs ∧ p1.nextPid = p.nextPid + 1 ∧
      (∀ c' ∈ p1.procs, c'.pid < p1.nextPid)) ∧
    (∀ oldest rest, p.procs = oldest :: rest →
      p.procs.length = p.max_procs →
      (∀ e, wait_proc oracle oldest = .error e →
        Limiting.get oracle p = (.error e, { p with procs := rest })) ∧
      (wait_proc oracle oldest = .ok () →
        Limiting.get oracle p =
          (.ok (p.command.spawn p.nextPid),
           { p with procs := rest ++ [p.command.spawn p.nextPid],
                    nextPid := p.nextPid + 1 }))) ∧
    (p.procs.length ≤ p.max_procs →
      (Limiting.get oracle p).2.procs.length ≤ p.max_procs) := by
  refine ⟨?_, ?_, ?_⟩
  · intro c p1 hget
    by_cases hfull : p.max_procs ≠ 0 ∧ p.procs.length = p.max_procs
    · obtain ⟨hn0, hlen⟩ := hfull
      cases hp : p.procs with
      | nil => rw [hp] at hlen; simp at hlen; omega
      | cons oldest rest =>
        rcases except_cases (wait_proc oracle oldest) with ⟨e, hw⟩ | hw
        · rw [limiting_get_full_err oracle p oldest rest e hn0 hlen hp hw]
            at hget
          simp at hget
        · rw [limiting_get_full_ok oracle p oldest rest hn0 hlen hp hw]
            at hget
          simp only [Prod.mk.injEq, Except.ok.injEq] at hget
          obtain ⟨hc, hp1⟩ := hget
          subst hc
          subst hp1
          refine ⟨rfl, ?_, ?_, rfl, ?_⟩
          · intro c' hc'
            have := hwf c' (by rw [hp]; exact hc')
            simp [Command.spawn]
            omega
          · simp
          · intro c' hc'
            simp at hc'
            rcases hc' with h1 | h1
            · have := hwf c' (by rw [hp]; exact List.mem_cons_of_mem _ h1)
              simp
              omega
            · subst h1
              simp [Command.spawn]
    · rw [limiting_get_not_full oracle p hfull] at hget
      simp only [Prod.mk.injEq, Except.ok.injEq] at hget
      obtain ⟨hc, hp1⟩ := hget
      subst hc
      subst hp1
      refine ⟨rfl, ?_, ?_, rfl, ?_⟩
      · intro c' hc'
        have := hwf c' hc'
        simp [Command.spawn]
        omega
      · simp
      · intro c' hc'
        simp at hc'
        rcases hc' with h1 | h1
        · have := hwf c' h1
          simp
          omega
        · subst h1
          simp [Command.spawn]
  · intro oldest rest hp hlen
    constructor
    · intro e hw
      exact limiting_get_full_err oracle p oldest rest e hN hlen hp hw
    · intro hw
      exact limiting_get_full_ok oracle p oldest rest hN hlen hp hw
  · intro hle
    by_cases hfull : p.max_procs ≠ 0 ∧ p.procs.length = p.max_procs
    · obtain ⟨hn0, hlen⟩ := hfull
      cases hp : p.procs with
      | nil => rw [hp] at hlen; simp at hlen; omega
      | cons oldest rest =>
        have hlen2 := congrArg List.length hp
        simp at hlen2
        rcases except_cases (wait_proc oracle oldest) with ⟨e, hw⟩ | hw
        · rw [limiting_get_full_err oracle p oldest rest e hn0 hlen hp hw]
          simp
          omega
        · rw [limiting_get_full_ok oracle p oldest rest hn0 hlen hp hw]
          simp
          omega
    · rw [limiting_get_not_full oracle p hfull]
      simp
      omega

theorem limiting_get_contract_witness :
    (1 : Nat) ≠ 0 ∧ (∀ c ∈ [(⟨0, some 0⟩ : Child)], c.pid < 1) ∧
      ([(⟨0, some 0⟩ : Child)].length ≤ 1) ∧
      (Limiting.get (fun _ => WaitOutcome.status (some 0))
        ⟨[⟨0, some 0⟩], 1, ⟨true⟩, 1⟩).2.procs.length ≤ 1 :=
  ⟨by decide, by decide, by decide,
    (limiting_get_contract (fun _ => WaitOutcome.status (some 0))
      ⟨[⟨0, some 0⟩], 1, ⟨true⟩, 1⟩ (by decide) (by decide)).2.2
      (by decide)⟩

/-- C7: for the `Rotating` pool with bound `N > 0`, the first `N` calls
to `get` each return a newly spawned process (call `i < N` returns the
process with fresh pid `i`), and the `i`-th call for `i ≥ N` returns the
same process instance as call `i mod N` without spawning (the number of
spawned processes after `M` calls is `min M N`); with bound 0 every
`get` spawns a new process (call `i` returns fresh pid `i`, `M` calls
spawn `M` processes) and no process is ever returned twice. -/
theorem rotating_round_robin (cmd : Command) (N M : Nat) :
    (0 < N →
      (∀ i, i < M →
        (Rotating.run (Rotating.new cmd N) M).get? i =
          some (Command.spawn { cmd with stdinPiped := true } (i % N))) ∧
      (∀ i, N ≤ i → i < M →
        (Rotating.run (Rotating.new cmd N) M).get? i =
          (Rotating.run (Rotating.new cmd N) M).get? (i % N)) ∧
      (Rotating.iterate (Rotating.new cmd N) M).procs.length = min M N) ∧
    (N = 0 →
      (∀ i, i < M →
        (Rotating.run (Rotating.new cmd N) M).get? i =
          some (Command.spawn { cmd with stdinPiped := true } i)) ∧
      (∀ i j, i < M → j < M →
        (Rotating.run (Rotating.new cmd N) M).get? i =
          (Rotating.run (Rotating.new cmd N) M).get? j → i = j) ∧
      (Rotating.iterate (Rotating.new cmd N) M).procs.length = M) := by
  constructor
  · intro hN
    refine ⟨?_, ?_, ?_⟩
    · intro i hi
      rw [run_get? _ M i hi, rotating_get_child cmd N hN i]
    · intro i hNi hi
      have hmlt : i % N < M := by
        have := Nat.mod_lt i hN
        omega
      rw [run_get? _ M i hi, run_get? _ M (i % N) hmlt]
      rw [rotating_get_child cmd N hN i,
        rotating_get_child cmd N hN (i % N)]
      rw [Nat.mod_eq_of_lt (Nat.mod_lt i hN)]
    · rw [rotating_state cmd N hN M]
      simp
  · intro hN0
    subst hN0
    refine ⟨?_, ?_, ?_⟩
    · intro i hi
      rw [run_get? _ M i hi, rotating_get_child_zero cmd i]
    · intro i j hi hj heq
      rw [run_get? _ M i hi, rotating_get_child_zero cmd i] at heq
      rw [run_get? _ M j hj, rotating_get_child_zero cmd j] at heq
      simpa [Command.spawn] using heq
    · rw [rotating_state_zero cmd M]
      simp

theorem rotating_round_robin_witness :
    (0 : Nat) < 2 ∧ (2 : Nat) ≤ 3 ∧ (3 : Nat) < 5 ∧
      (Rotating.run (Rotating.new ⟨false⟩ 2) 5).get? 3 =
        (Rotating.run (Rotating.new ⟨false⟩ 2) 5).get? (3 % 2) :=
  ⟨by decide, by decide, by decide,
    ((rotating_round_robin ⟨false⟩ 2 5).1 (by decide)).2.1 3 (by decide)
      (by decide)⟩

/-- C8: for every pool (`Limiting`, `Rotating` and the baseline `Pool`),
`join` returns Ok only when no processes remain tracked; on failure it
returns the failure of the first process, in its wait order, that did
not exit successfully, and that process together with the ones waited
before it was already removed from tracking before being waited on (the
remaining tracked processes are exactly the not-yet-waited ones, so no
process is waited on twice); calling `join` repeatedly until it succeeds
leaves zero processes tracked. -/
theorem join_drain_contract (oracle : Nat → WaitOutcome) :
    ((∀ p : Limiting, (Limiting.join oracle p).1 = .ok () →
        (Limiting.join oracle p).2.procs = []) ∧
     (∀ (p : Limiting) (e : Error),
        (Limiting.join oracle p).1 = .error e →
        ∃ pre c, p.procs.reverse =
            pre ++ c :: (Limiting.join oracle p).2.procs.reverse ∧
          (∀ x ∈ pre, wait_proc oracle x = .ok ()) ∧
          wait_proc oracle c = .error e) ∧
     (∀ (fuel : Nat) (p : Limiting), p.procs.length < fuel →
        (Limiting.joinRepeat oracle fuel p).procs = [])) ∧
    ((∀ p : Rotating, (Rotating.join oracle p).1 = .ok () →
        (Rotating.join oracle p).2.procs = []) ∧
     (∀ (p : Rotating) (e : Error),
        (Rotating.join oracle p).1 = .error e →
        ∃ pre c, p.procs.reverse =
            pre ++ c :: (Rotating.join oracle p).2.procs.reverse ∧
          (∀ x ∈ pre, wait_proc oracle x = .ok ()) ∧
          wait_proc oracle c = .error e) ∧
     (∀ (fuel : Nat) (p : Rotating), p.procs.length < fuel →
        (Rotating.joinRepeat oracle fuel p).procs = [])) ∧
    ((∀ p : Pool, (Pool.join oracle p).1 = .ok () →
        (Pool.join oracle p).2.procs = []) ∧
     (∀ (p : Pool) (e : Error), (Pool.join oracle p).1 = .error e →
        ∃ pre c, p.procs =
            pre ++ c :: (Pool.join oracle p).2.procs ∧
          (∀ x ∈ pre, wait_proc oracle x = .ok ()) ∧
          wait_proc oracle c = .error e) ∧
     (∀ (fuel : Nat) (p : Pool), p.procs.length < fuel →
        (Pool.joinRepeat oracle fuel p).procs = [])) := by
  refine ⟨⟨?_, ?_, limiting_joinRepeat_empty oracle⟩,
    ⟨?_, ?_, rotating_joinRepeat_empty oracle⟩,
    ⟨?_, ?_, pool_joinRepeat_empty oracle⟩⟩
  · intro p h
    simp only [Limiting.join] at h ⊢
    rw [sweep_ok oracle p.procs.reverse h]
    rfl
  · intro p e h
    simp only [Limiting.join] at h ⊢
    obtain ⟨pre, c, heq, hpre, hc⟩ := sweep_error oracle p.procs.reverse e h
    exact ⟨pre, c, by rw [List.reverse_reverse]; exact heq, hpre, hc⟩
  · intro p h
    simp only [Rotating.join] at h ⊢
    rw [sweep_ok oracle p.procs.reverse h]
    rfl
  · intro p e h
    simp only [Rotating.join] at h ⊢
    obtain ⟨pre, c, heq, hpre, hc⟩ := sweep_error oracle p.procs.reverse e h
    exact ⟨pre, c, by rw [List.reverse_reverse]; exact heq, hpre, hc⟩
  · intro p h
    simp only [Pool.join] at h ⊢
    exact sweep_ok oracle p.procs h
  · intro p e h
    simp only [Pool.join] at h ⊢
    exact sweep_error oracle p.procs e h

theorem join_drain_contract_witness :
    (Pool.join (fun _ => WaitOutcome.status (some 0))
        ⟨[⟨0, some 0⟩, ⟨1, some 1⟩], 2⟩).1 = .ok () ∧
      (Pool.join (fun _ => WaitOutcome.status (some 0))
        ⟨[⟨0, some 0⟩, ⟨1, some 1⟩], 2⟩).2.procs = [] :=
  ⟨rfl,
    (join_drain_contract (fun _ => WaitOutcome.status (some 0))).2.2.1
      ⟨[⟨0, some 0⟩, ⟨1, some 1⟩], 2⟩ rfl⟩

/-- C9: teardown of every pool kills every still-tracked process and
then waits on each one, in tracking order, whatever the outcomes of the
individual kill and wait calls — the processed pid lists are identical
for every kill and wait oracle, so errors from individual calls never
stop the sweep — and the result type carries no error, so teardown
itself never raises and cannot mask a primary error already being
propagated.  (That `Drop` runs on every exit path is a guarantee of the
Rust runtime, outside this embedding.) -/
theorem drop_teardown (killO waitO : Nat → Except Error Unit)
    (p : Limiting) (q : Rotating) (b : Pool) :
    Limiting.drop killO waitO p =
        (p.procs.map Child.pid, p.procs.map Child.pid) ∧
      Rotating.drop killO waitO q =
        (q.procs.map Child.pid, q.procs.map Child.pid) ∧
      Pool.drop killO waitO b =
        (b.procs.map Child.pid, b.procs.map Child.pid) := by
  refine ⟨?_, ?_, ?_⟩ <;>
    simp [Limiting.drop, Rotating.drop, Pool.drop, dropPool,
      killAll_eq, waitAll_eq]

/-- C10: `Limiting::new` and `Rotating::new` configure the command with
a piped stdin; every child a `get` hands out from such a pool has a
present stdin handle (`stdinHandle` returns Ok, so the `StdinNotPiped`
branch of `xstream` is unreachable), and the piped configuration — and,
for `Rotating`, the presence of stdin handles on all tracked children
and the cursor bounds — are preserved by `get`, so this holds along any
sequence of calls. -/
theorem pools_stdin_piped (cmd : Command) (N : Nat)
    (oracle : Nat → WaitOutcome) :
    ((Limiting.new cmd N).command.stdinPiped = true ∧
      (Rotating.new cmd N).command.stdinPiped = true) ∧
    (∀ (p : Limiting) (c : Child) (p1 : Limiting),
      p.command.stdinPiped = true →
      Limiting.get oracle p = (.ok c, p1) →
      stdinHandle c = .ok c.pid ∧ p1.command = p.command) ∧
    (∀ p : Rotating, p.command.stdinPiped = true →
      (∀ c ∈ p.procs, c.stdin = some c.pid) →
      p.ind ≤ p.procs.length →
      (p.max_procs ≠ 0 → p.ind < p.max_procs) →
      (p.max_procs ≠ 0 → p.procs.length ≤ p.max_procs) →
      stdinHandle (Rotating.get p).1 = .ok (Rotating.get p).1.pid ∧
      (Rotating.get p).2.command = p.command ∧
      (∀ c ∈ (Rotating.get p).2.procs, c.stdin = some c.pid) ∧
      (Rotating.get p).2.ind ≤ (Rotating.get p).2.procs.length ∧
      ((Rotating.get p).2.max_procs ≠ 0 →
        (Rotating.get p).2.ind < (Rotating.get p).2.max_procs) ∧
      ((Rotating.get p).2.max_procs ≠ 0 →
        (Rotating.get p).2.procs.length ≤ (Rotating.get p).2.max_procs)) := by
  refine ⟨⟨rfl, rfl⟩, ?_, ?_⟩
  · intro p c p1 hpiped hget
    by_cases hfull : p.max_procs ≠ 0 ∧ p.procs.length = p.max_procs
    · obtain ⟨hn0, hlen⟩ := hfull
      cases hp : p.procs with
      | nil => rw [hp] at hlen; simp at hlen; omega
      | cons oldest rest =>
        rcases except_cases (wait_proc oracle oldest) with ⟨e, hw⟩ | hw
        · rw [limiting_get_full_err oracle p oldest rest e hn0 hlen hp hw]
            at hget
          simp at hget
        · rw [limiting_get_full_ok oracle p oldest rest hn0 hlen hp hw]
            at hget
          simp only [Prod.mk.injEq, Except.ok.injEq] at hget
          obtain ⟨hc, hp1⟩ := hget
          subst hc
          subst hp1
          exact ⟨by simp [stdinHandle, Command.spawn, hpiped], rfl⟩
    · rw [limiting_get_not_full oracle p hfull] at hget
      simp only [Prod.mk.injEq, Except.ok.injEq] at hget
      obtain ⟨hc, hp1⟩ := hget
      subst hc
      subst hp1
      exact ⟨by simp [stdinHandle, Command.spawn, hpiped], rfl⟩
  · intro p hpiped hprocs hind hindmax hlenmax
    unfold Rotating.get
    by_cases h0 : p.max_procs = 0
    · rw [if_pos h0]
      refine ⟨by simp [stdinHandle, Command.spawn, hpiped], rfl, ?_, ?_, ?_, ?_⟩
      · intro c hc
        simp at hc
        rcases hc with h1 | h1
        · exact hprocs c h1
        · subst h1; simp [Command.spawn, hpiped]
      · simp; omega
      · intro hne; simp [h0] at hne
      · intro hne; simp [h0] at hne
    · rw [if_neg h0]
      have hmax : 0 < p.max_procs := by omega
      by_cases hsp : p.procs.length < p.max_procs
      · rw [if_pos hsp]
        dsimp only
        have hmem : ∀ c ∈ p.procs ++ [p.command.spawn p.nextPid],
            c.stdin = some c.pid := by
          intro c hc
          simp at hc
          rcases hc with h1 | h1
          · exact hprocs c h1
          · subst h1; simp [Command.spawn, hpiped]
        have hindlt : p.ind <
            (p.procs ++ [p.command.spawn p.nextPid]).length := by
          simp
          omega
        have hchildmem : ((p.procs ++ [p.command.spawn p.nextPid]).getD
            p.ind ⟨0, none⟩) ∈ p.procs ++ [p.command.spawn p.nextPid] := by
          rw [List.getD_eq_getElem _ _ hindlt]
          exact List.getElem_mem hindlt
        have hchild := hmem _ hchildmem
        simp only [List.getD, List.get?_eq_getElem?] at hchild
        refine ⟨by simp [stdinHandle, hchild], rfl, hmem, ?_, ?_, ?_⟩
        · simp only [List.length_append, List.length_cons,
            List.length_nil]
          have := Nat.mod_le (p.ind + 1) p.max_procs
          omega
        · intro _
          exact Nat.mod_lt _ hmax
        · intro _
          simp
          omega
      · rw [if_neg hsp]
        dsimp only
        have hlen : p.procs.length = p.max_procs := by
          have := hlenmax h0
          omega
        have hindlt : p.ind < p.procs.length := by
          have := hindmax h0
          omega
        have hchildmem : (p.procs.getD p.ind ⟨0, none⟩) ∈ p.procs := by
          rw [List.getD_eq_getElem _ _ hindlt]
          exact List.getElem_mem hindlt
        have hchild := hprocs _ hchildmem
        simp only [List.getD, List.get?_eq_getElem?] at hchild
        refine ⟨by simp [stdinHandle, hchild], rfl, hprocs, ?_, ?_, ?_⟩
        · have := Nat.mod_lt (p.ind + 1) hmax
          omega
        · intro _
          exact Nat.mod_lt _ hmax
        · intro _
          omega

theorem pools_stdin_piped_witness :
    (Limiting.new ⟨false⟩ 2).command.stdinPiped = true ∧
      Limiting.get (fun _ => WaitOutcome.status (some 0))
          (Limiting.new ⟨false⟩ 2) =
        (.ok ⟨0, some 0⟩, ⟨[⟨0, some 0⟩], 2, ⟨true⟩, 1⟩) ∧
      stdinHandle ⟨0, some 0⟩ = .ok 0 :=
  ⟨rfl, rfl,
    ((pools_stdin_piped ⟨false⟩ 2
        (fun _ => WaitOutcome.status (some 0))).2.1
      (Limiting.new ⟨false⟩ 2) ⟨0, some 0⟩ ⟨[⟨0, some 0⟩], 2, ⟨true⟩, 1⟩
      rfl rfl).1⟩

end XStream
